import Mathlib

/- Verification development for workedon (main.go): a tool that walks a
directory tree for git repositories, reduces each repository's recent commit
log to per-file change aggregates in a worker pool, and prints a ranked
report.  This file is a shallow embedding of the Go source: external go-git
calls (PlainOpen, Worktree/Pull, Log, Commit.Stats) are represented by their
possible outcomes carried as data, and everything the program itself computes
is translated function by function. -/

/-- Per-file diff statistics of one commit, go-git's object.FileStat:
a file name (empty for entries that carry no path) and added and deleted
line counts. -/
structure FileStat where
  name : String
  addition : Nat
  deletion : Nat
  deriving DecidableEq, Repr

/-- Decidable equality for Except values, needed to evaluate concrete
repository inputs in witnesses. -/
instance exceptDecEq {ε : Type} {α : Type} [DecidableEq ε] [DecidableEq α] :
    DecidableEq (Except ε α)
  | .ok a, .ok b =>
    if h : a = b then .isTrue (by rw [h]) else .isFalse (by intro hc; cases hc; exact h rfl)
  | .error a, .error b =>
    if h : a = b then .isTrue (by rw [h]) else .isFalse (by intro hc; cases hc; exact h rfl)
  | .ok _, .error _ => .isFalse (by intro hc; cases hc)
  | .error _, .ok _ => .isFalse (by intro hc; cases hc)

/-- One commit as the log reducer consumes it: author name, full message,
committer timestamp (used by the Since filter of repo.Log), and the outcome
of the external commit.Stats() call. -/
structure Commit where
  authorName : String
  message : String
  when : Nat
  statsResult : Except String (List FileStat)
  deriving DecidableEq, Repr

/-- Outcome of the underlying worktree Pull call (go-git w.Pull):
success, the distinguished NoErrAlreadyUpToDate, or some other error. -/
inductive PullOutcome where
  | ok
  | alreadyUpToDate
  | err (e : String)
  deriving DecidableEq, Repr

/-- A repository handle as the log reducer sees it: the outcomes of the
external calls made on it.  setupErr covers the Worktree, UserHomeDir and
key-loading steps of pullRepo (main.go:499-513); pullOutcome the w.Pull call
(main.go:515); logErr the repo.Log call (main.go:451); commits is the full
local history, to which repo.Log applies the Since cutoff. -/
structure Repo where
  setupErr : Option String
  pullOutcome : PullOutcome
  logErr : Option String
  commits : List Commit
  deriving DecidableEq, Repr

/-- pullRepo (main.go:498-522): any failure of Worktree, UserHomeDir or key
loading is returned as is; the Pull error is returned unless it is
NoErrAlreadyUpToDate, which is success. -/
def pullRepo (r : Repo) : Option String :=
  match r.setupErr with
  | some e => some e
  | none =>
    match r.pullOutcome with
    | .ok => none
    | .alreadyUpToDate => none
    | .err e => some e

/-- The error cases parseRepoLogs can produce, keeping the distinction the
worker switch makes (main.go:378-384): pull is the pullError wrapper type
(main.go:435-441, 446); log and stats are errors returned by repo.Log and
commit.Stats; statFatal is the log.Fatalf inside parseStat (main.go:546),
which in Go kills the process on the spot. -/
inductive PErr where
  | pull (e : String)
  | log (e : String)
  | stats (e : String)
  | statFatal (e : String)
  deriving DecidableEq, Repr

/-- The message text of an error, as the %v verb would print it. -/
def errMsg : PErr → String
  | .pull e => e
  | .log e => e
  | .stats e => e
  | .statFatal e => e

/-- The file struct of main.go (306-310): per-file aggregate. -/
structure file where
  path : String
  changes : Nat
  authors : List String
  deriving DecidableEq, Repr

/-- Reading an int-valued Go map, m[k]: the zero value when the key is
absent. -/
def assocGet (m : List (String × Nat)) (k : String) : Nat :=
  match m.find? (fun kv => kv.1 = k) with
  | some kv => kv.2
  | none => 0

/-- Reading a slice-valued Go map, m[k]: nil when the key is absent. -/
def getList (m : List (String × List String)) (k : String) : List String :=
  match m.find? (fun kv => kv.1 = k) with
  | some kv => kv.2
  | none => []

/-- The update m[k] += n on an int-valued Go map.  Go maps are modelled as
insertion-ordered association lists; the real iteration order of a Go map is
unspecified, and insertion order is our deterministic stand-in (this choice
only affects the order of the flattened file list, which no claim below
depends on). -/
def bumpChanges (m : List (String × Nat)) (k : String) (n : Nat) : List (String × Nat) :=
  match m with
  | [] => [(k, n)]
  | kv :: rest => if kv.1 = k then (kv.1, kv.2 + n) :: rest else kv :: bumpChanges rest k n

/-- The update m[k] = append(m[k], s) on a slice-valued Go map. -/
def appendTo (m : List (String × List String)) (k : String) (s : String) : List (String × List String) :=
  match m with
  | [] => [(k, [s])]
  | kv :: rest => if kv.1 = k then (kv.1, kv.2 ++ [s]) :: rest else kv :: appendTo rest k s

/-- parseStat (main.go:536-550), kept with its local count-map bookkeeping:
a fresh map gets stat.Name bumped once if absent, the return values are set,
and then any count above 1 triggers log.Fatalf, modelled as the error case
(in Go it kills the process). -/
def parseStat (stat : FileStat) : Except String (String × Nat) :=
  let count : List (String × Nat) := []
  let count := if (count.find? (fun kv => kv.1 = stat.name)).isSome then count
               else bumpChanges count stat.name 1
  let nChanges := stat.addition + stat.deletion
  if count.any (fun kv => 1 < kv.2) then .error "did not expect this"
  else .ok (stat.name, nChanges)

/-- Loop body of uniq (main.go:524-534): keys is the seen-set, the result
keeps each string the first time it is seen. -/
def uniqAux (keys : List String) : List String → List String
  | [] => []
  | s :: rest =>
    if keys.contains s then uniqAux keys rest
    else s :: uniqAux (s :: keys) rest

/-- uniq (main.go:524-534): deduplicate a string slice keeping first
occurrences in order. -/
def uniq (ss : List String) : List String :=
  uniqAux [] ss

/-- First line of the commit message: strings.Split(msg, newline)[0]
(main.go:477-478). -/
def firstLine (s : String) : String :=
  (s.splitOn "\n").headD ""

/-- The three per-file maps parseRepoLogs builds while scanning the log
(main.go:456-458). -/
structure LogState where
  changesPerFile : List (String × Nat)
  authorsPerFile : List (String × List String)
  msgsPerFile : List (String × List String)
  deriving DecidableEq, Repr

/-- The empty initial maps. -/
def initLogState : LogState :=
  { changesPerFile := [], authorsPerFile := [], msgsPerFile := [] }

/-- Handling of a single stat inside the commit callback (main.go:469-479):
parseStat splits the stat; only a non-empty file name contributes to the
change map, while the author and first message line are appended under the
name (empty or not) unconditionally. -/
def applyStat (authorName msgLine : String) (st : LogState) (s : FileStat) :
    Except String LogState :=
  match parseStat s with
  | .error e => .error e
  | .ok (f, n) =>
    .ok { changesPerFile :=
            if f = "" then st.changesPerFile else bumpChanges st.changesPerFile f n
        , authorsPerFile := appendTo st.authorsPerFile f authorName
        , msgsPerFile := appendTo st.msgsPerFile f msgLine }

/-- The stats loop of one commit (main.go:469-479). -/
def applyStats (authorName msgLine : String) :
    LogState → List FileStat → Except String LogState
  | st, [] => .ok st
  | st, s :: rest =>
    match applyStat authorName msgLine st s with
    | .error e => .error e
    | .ok st' => applyStats authorName msgLine st' rest

/-- The commit callback of cIter.ForEach (main.go:459-482): skip the commit
when an author filter is set and does not match exactly; otherwise fetch its
stats (an error aborts the iteration) and fold them into the maps. -/
def applyCommit (author : String) (st : LogState) (c : Commit) : Except PErr LogState :=
  if author ≠ "" ∧ c.authorName ≠ author then .ok st
  else
    match c.statsResult with
    | .error e => .error (.stats e)
    | .ok sts =>
      match applyStats c.authorName (firstLine c.message) st sts with
      | .error e => .error (.statFatal e)
      | .ok st' => .ok st'

/-- The ForEach loop over the commit iterator. -/
def applyCommits (author : String) : LogState → List Commit → Except PErr LogState
  | st, [] => .ok st
  | st, c :: rest =>
    match applyCommit author st c with
    | .error e => .error e
    | .ok st' => applyCommits author st' rest

/-- The flattening loop (main.go:487-493): one file record per entry of the
changes map, with that file's deduplicated author list (msgsPerFile is built
but never read in this revision of the code). -/
def flattenFiles (st : LogState) : List file :=
  st.changesPerFile.map
    (fun kv => { path := kv.1, changes := kv.2, authors := uniq (getList st.authorsPerFile kv.1) })

/-- The body of parseRepoLogs after the pull step (main.go:450-495):
repo.Log with the Since cutoff (go-git keeps a commit iff its committer time
is not before the cutoff, modelled as cutoff ≤ when), then the ForEach fold,
then flattening. -/
def parseLogsCore (r : Repo) (author : String) (cutoff : Nat) : Except PErr (List file) :=
  match r.logErr with
  | some e => .error (.log e)
  | none =>
    match applyCommits author initLogState (r.commits.filter (fun c => cutoff ≤ c.when)) with
    | .error e => .error e
    | .ok st => .ok (flattenFiles st)

/-- parseRepoLogs (main.go:443-496): when the pull flag is set a failing
pullRepo returns the pullError wrapper immediately, with no file list;
otherwise the log is retrieved and reduced. -/
def parseRepoLogs (r : Repo) (pullFlag : Bool) (author : String) (cutoff : Nat) :
    Except PErr (List file) :=
  if pullFlag then
    match pullRepo r with
    | some e => .error (.pull e)
    | none => parseLogsCore r author cutoff
  else parseLogsCore r author cutoff

/-- One work unit: the path and repository handle sent on the in channel by
the discovery goroutine (main.go:354-357). -/
structure RepoUnit where
  path : String
  repo : Repo
  deriving DecidableEq, Repr

/-- The directory struct of main.go (298-304), as it travels on the out
channel (the repo handle itself is no longer needed there). -/
structure directory where
  path : String
  changes : Nat
  authors : List String
  files : List file
  deriving DecidableEq, Repr

/-- What one worker iteration does with a unit: either the process dies
(log.Fatalf) with one diagnostic line, or a directory value is sent on the
out channel, together with the warning lines written to stderr on the way. -/
inductive WorkerOut where
  | fatal (msg : String)
  | emit (d : directory) (warnings : List String)
  deriving DecidableEq, Repr

/-- The warning lines of a worker outcome. -/
def warningsOf : WorkerOut → List String
  | .fatal _ => []
  | .emit _ w => w

/-- The accumulation loop of the worker (main.go:386-390): starting from the
zero-valued directory, add each file's changes and append its authors; the
files field is set afterwards (main.go:390). -/
def accumulate (p : String) (fs : List file) : directory :=
  let d0 : directory := { path := p, changes := 0, authors := [], files := fs }
  fs.foldl (fun d f => { d with changes := d.changes + f.changes
                              , authors := d.authors ++ f.authors }) d0

/-- One worker loop iteration (main.go:376-392): parse the unit's logs; a
pullError is logged as a warning and the iteration continues with the nil
file list it got back; any other error is log.Fatalf; on success the files
are accumulated and the directory is emitted. -/
def workerStep (u : RepoUnit) (pullFlag : Bool) (author : String) (cutoff : Nat) : WorkerOut :=
  match parseRepoLogs u.repo pullFlag author cutoff with
  | .error (.pull e) =>
    .emit (accumulate u.path []) ["while pulling repo " ++ u.path ++ ": " ++ e]
  | .error e =>
    .fatal ("while parsing repo " ++ u.path ++ ": " ++ errMsg e)
  | .ok fs => .emit (accumulate u.path fs) []

/-- The collection loop of reportResults (main.go:405-413) over the drained
out channel, in arrival order: directories with an empty file list are
skipped, the rest are appended and their changes added to the grand total. -/
def collectResults (ds : List directory) : Nat × List directory :=
  ds.foldl
    (fun acc d => if d.files.isEmpty then acc else (acc.1 + d.changes, acc.2 ++ [d]))
    (0, [])

/-- Insertion of one directory into a prefix already sorted by descending
changes, moving it left past strictly smaller entries, exactly as Go's
insertion sort does under sort.Reverse(byChanges) (Less(j, j-1) compares
x[j-1].changes < x[j].changes): the new element lands after every element
with an equal or larger count. -/
def insertDesc (d : directory) : List directory → List directory
  | [] => [d]
  | e :: rest => if e.changes < d.changes then d :: e :: rest else e :: insertDesc d rest

/-- The sort.Sort(sort.Reverse(byChanges(directories))) call (main.go:419,
429-433).  Go's sort.Sort runs pdqsort, whose base case for slices of length
at most 12 is exactly this left-to-right insertion sort; above that length
the algorithm is unstable and its tie order is different, but every theorem
below either works in the small regime or does not depend on tie order. -/
def sortByChangesDesc (ds : List directory) : List directory :=
  ds.foldl (fun acc d => insertDesc d acc) []

/-- The value printed by the %2.0f verb for the percentage: a float64
division can produce NaN (0/0, when every survivor has zero changes) or +Inf
(c/0 with c positive, impossible here but kept for faithfulness). -/
inductive PctVal where
  | nan
  | infinite
  | num (n : Nat)
  deriving DecidableEq, Repr

/-- Rounding of (100*c)/total to a whole number with ties to even: fmt's
%2.0f formats the correctly rounded decimal of its float64 argument with
ties going to the even digit.  For the magnitudes a change report reaches,
and in particular whenever the quotient is exactly representable (such as
12.5 at c = 1, total = 8), this integer computation coincides with the float
path of main.go:421. -/
def roundHalfEvenPct (c total : Nat) : Nat :=
  let n := 100 * c
  let q := n / total
  let r := n % total
  if 2 * r < total then q
  else if total < 2 * r then q + 1
  else if q % 2 = 0 then q else q + 1

/-- The percentage field of a report row, float64(c)/float64(total)*100
formatted by %2.0f (main.go:421). -/
def pctDisplay (c total : Nat) : PctVal :=
  if total = 0 then (if c = 0 then .nan else .infinite)
  else .num (roundHalfEvenPct c total)

/-- One printed row of the report body (main.go:420-423): path, the
percentage and the absolute count from the CHANGES column, and the
comma-joined deduplicated author list. -/
structure Row where
  path : String
  pct : PctVal
  changes : Nat
  authors : String
  deriving DecidableEq, Repr

/-- Rendering of one surviving directory against the grand total
(main.go:421-423). -/
def renderRow (total : Nat) (d : directory) : Row :=
  { path := d.path
  , pct := pctDisplay d.changes total
  , changes := d.changes
  , authors := String.intercalate ", " (uniq d.authors) }

/-- reportResults (main.go:404-427): collect survivors and the grand total
in arrival order, sort by descending changes, render one row each (the
constant header line is not modelled). -/
def reportRows (ds : List directory) : List Row :=
  (sortByChangesDesc (collectResults ds).2).map (renderRow (collectResults ds).1)

/-- Outcome of git.PlainOpen on a directory (main.go:344-352): a repository,
the distinguishable ErrRepositoryNotExists, or any other error. -/
inductive OpenResult where
  | repoOk
  | notExists
  | otherErr (e : String)
  deriving DecidableEq, Repr

/-- What the visit closure does with a directory entry (main.go:343-361):
emit a unit and return filepath.SkipDir, return nil and keep recursing, or
return the error, which makes filepath.WalkDir stop and main log.Fatal. -/
inductive VisitAction where
  | emitAndSkip
  | recurse
  | fail (e : String)
  deriving DecidableEq, Repr

/-- The classification the visit closure applies to a directory entry
according to the PlainOpen outcome (main.go:344-361). -/
def visitDir : OpenResult → VisitAction
  | .repoOk => .emitAndSkip
  | .notExists => .recurse
  | .otherErr e => .fail e

mutual
/-- A filesystem tree for the discovery walk: a directory carries its path,
whether git.PlainOpen recognizes it as a repository root, and its children;
a plain file carries only its path. -/
inductive FsNode where
  | dir (path : String) (isRoot : Bool) (children : FsForest)
  | file (path : String)
  deriving DecidableEq, Repr

/-- A list of sibling filesystem entries. -/
inductive FsForest where
  | nil
  | cons (head : FsNode) (tail : FsForest)
  deriving DecidableEq, Repr
end

mutual
/-- The units emitted by the discovery goroutine walking a tree
(main.go:338-366): filepath.WalkDir visits a directory before its children;
a recognized root is emitted and SkipDir prunes its whole subtree, otherwise
the walk recurses; plain files emit nothing. -/
def walkRepos : FsNode → List String
  | .dir p isRoot cs => if isRoot then [p] else walkReposF cs
  | .file _ => []

/-- walkRepos over a forest of siblings, in order. -/
def walkReposF : FsForest → List String
  | .nil => []
  | .cons t ts => walkRepos t ++ walkReposF ts
end

mutual
/-- All directory paths of a tree, in visit order. -/
def dirPaths : FsNode → List String
  | .dir p _ cs => p :: dirPathsF cs
  | .file _ => []

/-- All directory paths of a forest. -/
def dirPathsF : FsForest → List String
  | .nil => []
  | .cons t ts => dirPaths t ++ dirPathsF ts
end

mutual
/-- All repository roots of a tree, nested ones included. -/
def reposOf : FsNode → List String
  | .dir p isRoot cs => (if isRoot then [p] else []) ++ reposOfF cs
  | .file _ => []

/-- All repository roots of a forest, nested ones included. -/
def reposOfF : FsForest → List String
  | .nil => []
  | .cons t ts => reposOf t ++ reposOfF ts
end

/-- Membership of a node among the entries of a forest. -/
inductive ForestMem : FsNode → FsForest → Prop where
  | head (t : FsNode) (ts : FsForest) : ForestMem t (.cons t ts)
  | tail {t : FsNode} {ts : FsForest} (s : FsNode) : ForestMem t ts → ForestMem t (.cons s ts)

/-- The subtree relation: a node occurs within a tree. -/
inductive InTree : FsNode → FsNode → Prop where
  | refl (t : FsNode) : InTree t t
  | step {s c : FsNode} {p : String} {r : Bool} {cs : FsForest} :
      ForestMem c cs → InTree s c → InTree s (.dir p r cs)

/-- Modelled from the spec: the claimed rounding of a displayed percentage,
(count / grand total) * 100 to the nearest whole number under the usual
convention that a half rounds up; written on naturals as
(200*c + total) / (2*total). -/
def specRoundNearest (c total : Nat) : Nat :=
  (200 * c + total) / (2 * total)

/-- Modelled from the spec: deduplication in order of first occurrence,
keeping the head and erasing its later repeats before recursing. -/
def dedupFirstOccurrence : List String → List String
  | [] => []
  | s :: rest => s :: dedupFirstOccurrence (rest.filter (fun x => x ≠ s))
  termination_by l => l.length
  decreasing_by
    simp only [List.length_cons]
    exact Nat.lt_succ_of_le (List.length_filter_le _ _)

/-- A commit qualifies for aggregation when it is inside the window and
passes the author filter. -/
def commitQualifies (author : String) (cutoff : Nat) (c : Commit) : Bool :=
  (decide (cutoff ≤ c.when)) && (author = "" || c.authorName = author)

/-- The lines a commit contributes to one file: the sum of added plus
deleted over its stats carrying exactly that name (zero when its stats
could not be retrieved, a case excluded whenever parsing succeeded). -/
def commitFileChanges (p : String) (c : Commit) : Nat :=
  match c.statsResult with
  | .error _ => 0
  | .ok sts => ((sts.filter (fun s => s.name = p)).map (fun s => s.addition + s.deletion)).sum

/-- The closed-form change count the spec asserts for a file: the sum of its
per-commit contributions over exactly the qualifying commits. -/
def specChangeSum (r : Repo) (author : String) (cutoff : Nat) (p : String) : Nat :=
  ((r.commits.filter (commitQualifies author cutoff)).map (commitFileChanges p)).sum

/-- The change count a produced file list assigns to a path (zero when the
path has no record). -/
def fileChanges (fs : List file) (p : String) : Nat :=
  match fs.find? (fun f => f.path = p) with
  | some f => f.changes
  | none => 0

/-- The successful branch of applyStat as a total step function on the three
maps; applyStat always lands in this branch because parseStat never fails
(proved below), so the per-commit stats loop is this function folded. -/
def stepStat (authorName msgLine : String) (st : LogState) (s : FileStat) : LogState :=
  { changesPerFile :=
      if s.name = "" then st.changesPerFile
      else bumpChanges st.changesPerFile s.name (s.addition + s.deletion)
  , authorsPerFile := appendTo st.authorsPerFile s.name authorName
  , msgsPerFile := appendTo st.msgsPerFile s.name msgLine }

/-- The guarded branch of parseStat is dead: the count map is created empty,
so its only entry is 1 and the fatal check never fires. -/
theorem parseStat_ok (s : FileStat) :
    parseStat s = .ok (s.name, s.addition + s.deletion) := rfl

/-- Membership in the spec-side first-occurrence deduplication. -/
theorem mem_dedupFirstOccurrence :
    ∀ (l : List String) (a : String), a ∈ dedupFirstOccurrence l ↔ a ∈ l := by
  intro l
  induction l using dedupFirstOccurrence.induct with
  | case1 => intro a; simp [dedupFirstOccurrence]
  | case2 s rest ih =>
    intro a
    simp only [dedupFirstOccurrence, List.mem_cons, ih, List.mem_filter]
    by_cases h : a = s <;> simp [h]

/-- The spec-side first-occurrence deduplication has no repeats. -/
theorem nodup_dedupFirstOccurrence : ∀ l : List String, (dedupFirstOccurrence l).Nodup := by
  intro l
  induction l using dedupFirstOccurrence.induct with
  | case1 => simp [dedupFirstOccurrence]
  | case2 s rest ih =>
    simp only [dedupFirstOccurrence, List.nodup_cons]
    refine ⟨fun hmem => ?_, ih⟩
    rw [mem_dedupFirstOccurrence] at hmem
    simp at hmem

/-- The uniq loop with seen-set keys equals first-occurrence deduplication of
the input with the already-seen strings dropped. -/
theorem uniqAux_eq_dedup :
    ∀ (ss keys : List String),
      uniqAux keys ss = dedupFirstOccurrence (ss.filter (fun s => !(keys.contains s))) := by
  intro ss
  induction ss with
  | nil => intro keys; simp [uniqAux, dedupFirstOccurrence]
  | cons s rest ih =>
    intro keys
    cases hk : keys.contains s with
    | true =>
      simp only [uniqAux, hk, if_true, List.filter_cons, Bool.not_true, Bool.false_eq_true,
        if_false]
      exact ih keys
    | false =>
      simp only [uniqAux, hk, Bool.false_eq_true, if_false, List.filter_cons, Bool.not_false,
        if_true]
      rw [ih (s :: keys), dedupFirstOccurrence]
      congr 1
      rw [List.filter_filter]
      congr 1
      apply List.filter_congr
      intro x _
      simp [List.contains_cons, Bool.not_or, Bool.and_comm, eq_comm]

/-- C6: uniq returns exactly the set of elements of its input, with no
element repeated, in order of each element's first occurrence: it equals the
spec-side first-occurrence deduplication, is duplicate-free, and has the
same members as the input. -/
theorem c6_uniq_first_occurrence (ss : List String) :
    uniq ss = dedupFirstOccurrence ss
    ∧ (uniq ss).Nodup
    ∧ (∀ a : String, a ∈ uniq ss ↔ a ∈ ss) := by
  have heq : uniq ss = dedupFirstOccurrence ss := by
    rw [uniq, uniqAux_eq_dedup]
    congr 1
    simp
  refine ⟨heq, ?_, ?_⟩
  · rw [heq]; exact nodup_dedupFirstOccurrence ss
  · intro a; rw [heq]; exact mem_dedupFirstOccurrence ss a

/-- Witness for C6 at a concrete input with a repeated element. -/
theorem c6_uniq_first_occurrence_witness :
    uniq ["b", "a", "b", "c"] = dedupFirstOccurrence ["b", "a", "b", "c"]
    ∧ ("c" ∈ uniq ["b", "a", "b", "c"] ↔ "c" ∈ ["b", "a", "b", "c"]) :=
  ⟨(c6_uniq_first_occurrence ["b", "a", "b", "c"]).1,
   (c6_uniq_first_occurrence ["b", "a", "b", "c"]).2.2 "c"⟩

/-- C10: the seen-more-than-once bookkeeping in parseStat can never trigger:
for every statistic entry the guarded fatal branch is dead and parseStat
returns exactly the entry's file name paired with its additions plus
deletions. -/
theorem c10_parseStat_dead_branch (s : FileStat) :
    parseStat s = .ok (s.name, s.addition + s.deletion) :=
  parseStat_ok s

/-- Reading an empty map gives the zero value. -/
theorem assocGet_nil (q : String) : assocGet [] q = 0 := rfl

/-- Unfolding one entry of a map read. -/
theorem assocGet_cons (kv : String × Nat) (rest : List (String × Nat)) (q : String) :
    assocGet (kv :: rest) q = if kv.1 = q then kv.2 else assocGet rest q := by
  simp only [assocGet, List.find?]
  by_cases h : kv.1 = q
  · simp [h]
  · simp [h]

/-- Reading the changes map after a bump: the bumped key gained n, every
other key is unchanged (a missing key reads as zero before and n after). -/
theorem assocGet_bumpChanges (m : List (String × Nat)) (k : String) (n : Nat) (q : String) :
    assocGet (bumpChanges m k n) q = assocGet m q + (if q = k then n else 0) := by
  induction m with
  | nil =>
    show assocGet [(k, n)] q = assocGet [] q + _
    rw [assocGet_cons, assocGet_nil]
    by_cases h : k = q
    · simp [h]
    · have hqk : ¬(q = k) := fun hh => h hh.symm
      simp [h, hqk]
  | cons kv rest ih =>
    by_cases h1 : kv.1 = k
    · rw [show bumpChanges (kv :: rest) k n = (kv.1, kv.2 + n) :: rest by
        simp [bumpChanges, h1]]
      rw [assocGet_cons, assocGet_cons]
      by_cases hq : kv.1 = q
      · have hqk : q = k := by rw [← hq, h1]
        simp [hq, hqk]
      · have hqk : ¬(q = k) := fun hh => hq (by rw [h1, hh])
        simp [hq, hqk]
    · rw [show bumpChanges (kv :: rest) k n = kv :: bumpChanges rest k n by
        simp [bumpChanges, h1]]
      rw [assocGet_cons, assocGet_cons]
      by_cases hq : kv.1 = q
      · have hqk : ¬(q = k) := fun hh => h1 (by rw [hq, hh])
        simp [hq, hqk]
      · simp [hq, ih]

/-- applyStat never fails and performs exactly the three map updates. -/
theorem applyStat_eq (an ml : String) (st : LogState) (s : FileStat) :
    applyStat an ml st s = .ok (stepStat an ml st s) := by
  simp only [applyStat, parseStat_ok, stepStat]

/-- The stats loop is the fold of the step function. -/
theorem applyStats_eq (an ml : String) :
    ∀ (sts : List FileStat) (st : LogState),
      applyStats an ml st sts = .ok (sts.foldl (stepStat an ml) st) := by
  intro sts
  induction sts with
  | nil => intro st; rfl
  | cons s rest ih =>
    intro st
    simp only [applyStats, applyStat_eq, List.foldl_cons]
    exact ih (stepStat an ml st s)

/-- Effect of one stat on the change count of a fixed non-empty path: it
grows by the stat's added plus deleted lines exactly when the stat names
that path (an empty-named stat touches no change count). -/
theorem stepStat_changes (an ml : String) (st : LogState) (s : FileStat) (p : String)
    (hp : p ≠ "") :
    assocGet (stepStat an ml st s).changesPerFile p
      = assocGet st.changesPerFile p
        + (if s.name = p then s.addition + s.deletion else 0) := by
  by_cases hname : s.name = ""
  · have hnp : ¬(s.name = p) := by rw [hname]; exact fun h => hp h.symm
    rw [if_neg hnp]
    simp [stepStat, hname]
  · simp only [stepStat, hname, if_false]
    rw [assocGet_bumpChanges]
    congr 1
    by_cases hnp : s.name = p
    · simp [hnp]
    · have hpn : ¬(p = s.name) := fun h => hnp h.symm
      simp [hnp, hpn]

/-- Effect of a whole stats list on the change count of a non-empty path. -/
theorem foldl_stepStat_changes (an ml : String) (p : String) (hp : p ≠ "") :
    ∀ (sts : List FileStat) (st : LogState),
      assocGet ((sts.foldl (stepStat an ml) st)).changesPerFile p
        = assocGet st.changesPerFile p
          + ((sts.filter (fun s => s.name = p)).map (fun s => s.addition + s.deletion)).sum := by
  intro sts
  induction sts with
  | nil => intro st; simp
  | cons s rest ih =>
    intro st
    simp only [List.foldl_cons]
    rw [ih (stepStat an ml st s), stepStat_changes an ml st s p hp]
    by_cases h : s.name = p
    · simp [List.filter_cons, h, Nat.add_assoc]
    · simp [List.filter_cons, h]

/-- A commit filtered out by the author check leaves the maps untouched. -/
theorem applyCommit_skip (author : String) (st : LogState) (c : Commit)
    (h : author ≠ "" ∧ c.authorName ≠ author) :
    applyCommit author st c = .ok st := by
  unfold applyCommit
  rw [if_pos h]

/-- A commit that passes the author check and whose stats are available
folds its stats into the maps. -/
theorem applyCommit_ok (author : String) (st : LogState) (c : Commit) (sts : List FileStat)
    (hna : ¬(author ≠ "" ∧ c.authorName ≠ author)) (hs : c.statsResult = .ok sts) :
    applyCommit author st c
      = .ok (sts.foldl (stepStat c.authorName (firstLine c.message)) st) := by
  simp only [applyCommit, if_neg hna, hs, applyStats_eq]

/-- A commit that passes the author check but whose stats call failed aborts
the fold with the stats error. -/
theorem applyCommit_statsErr (author : String) (st : LogState) (c : Commit) (e : String)
    (hna : ¬(author ≠ "" ∧ c.authorName ≠ author)) (hs : c.statsResult = .error e) :
    applyCommit author st c = .error (.stats e) := by
  simp only [applyCommit, if_neg hna, hs]

/-- When the ForEach fold over a commit list succeeds, the change count of
any non-empty path grew by the per-commit contributions of exactly the
commits that pass the author filter. -/
theorem applyCommits_changes (author : String) (p : String) (hp : p ≠ "") :
    ∀ (cs : List Commit) (st st' : LogState),
      applyCommits author st cs = .ok st' →
      assocGet st'.changesPerFile p
        = assocGet st.changesPerFile p
          + ((cs.filter (fun c => author = "" || c.authorName = author)).map
              (commitFileChanges p)).sum := by
  intro cs
  induction cs with
  | nil =>
    intro st st' h
    simp only [applyCommits] at h
    cases h
    simp
  | cons c rest ih =>
    intro st st' h
    simp only [applyCommits] at h
    by_cases hskip : author ≠ "" ∧ c.authorName ≠ author
    · rw [applyCommit_skip author st c hskip] at h
      have hpred : (decide (author = "") || decide (c.authorName = author)) = false := by
        simp [hskip.1, hskip.2]
      rw [List.filter_cons, if_neg (by simp [hpred])]
      exact ih st st' h
    · have hpred : (decide (author = "") || decide (c.authorName = author)) = true := by
        rcases not_and_or.mp hskip with h1 | h2
        · simp [not_not.mp h1]
        · simp [not_not.mp h2]
      cases hsr : c.statsResult with
      | error e =>
        rw [applyCommit_statsErr author st c e hskip hsr] at h
        cases h
      | ok sts =>
        rw [applyCommit_ok author st c sts hskip hsr] at h
        rw [List.filter_cons, if_pos (by simp [hpred])]
        rw [ih _ st' h, foldl_stepStat_changes c.authorName (firstLine c.message) p hp sts st]
        have hcfc : commitFileChanges p c
            = ((sts.filter (fun s => s.name = p)).map (fun s => s.addition + s.deletion)).sum := by
          simp only [commitFileChanges, hsr]
        simp [hcfc, Nat.add_assoc]

/-- An entry of a bumped map either carries the bumped key or was already
present. -/
theorem mem_bumpChanges (k : String) (n : Nat) :
    ∀ (m : List (String × Nat)) (kv : String × Nat),
      kv ∈ bumpChanges m k n → kv.1 = k ∨ kv ∈ m := by
  intro m
  induction m with
  | nil =>
    intro kv h
    simp only [bumpChanges, List.mem_singleton] at h
    left; rw [h]
  | cons kv0 rest ih =>
    intro kv h
    by_cases h1 : kv0.1 = k
    · rw [show bumpChanges (kv0 :: rest) k n = (kv0.1, kv0.2 + n) :: rest by
        simp [bumpChanges, h1]] at h
      rcases List.mem_cons.mp h with h2 | h2
      · left; rw [h2]; exact h1
      · right; exact List.mem_cons_of_mem _ h2
    · rw [show bumpChanges (kv0 :: rest) k n = kv0 :: bumpChanges rest k n by
        simp [bumpChanges, h1]] at h
      rcases List.mem_cons.mp h with h2 | h2
      · right; rw [h2]; exact List.mem_cons_self _ _
      · rcases ih kv h2 with h3 | h3
        · left; exact h3
        · right; exact List.mem_cons_of_mem _ h3

/-- One stat step never puts the empty path into the changes map. -/
theorem stepStat_keys (an ml : String) (st : LogState) (s : FileStat)
    (hinv : ∀ kv ∈ st.changesPerFile, kv.1 ≠ "") :
    ∀ kv ∈ (stepStat an ml st s).changesPerFile, kv.1 ≠ "" := by
  intro kv hkv
  by_cases hname : s.name = ""
  · rw [show (stepStat an ml st s).changesPerFile = st.changesPerFile by
      simp [stepStat, hname]] at hkv
    exact hinv kv hkv
  · rw [show (stepStat an ml st s).changesPerFile
        = bumpChanges st.changesPerFile s.name (s.addition + s.deletion) by
      simp [stepStat, hname]] at hkv
    rcases mem_bumpChanges s.name (s.addition + s.deletion) st.changesPerFile kv hkv with h | h
    · rw [h]; exact hname
    · exact hinv kv h

/-- The stats fold of a commit never puts the empty path into the changes
map. -/
theorem foldl_stepStat_keys (an ml : String) :
    ∀ (sts : List FileStat) (st : LogState),
      (∀ kv ∈ st.changesPerFile, kv.1 ≠ "") →
      ∀ kv ∈ ((sts.foldl (stepStat an ml) st)).changesPerFile, kv.1 ≠ "" := by
  intro sts
  induction sts with
  | nil => intro st hinv; exact hinv
  | cons s rest ih =>
    intro st hinv
    simp only [List.foldl_cons]
    exact ih (stepStat an ml st s) (stepStat_keys an ml st s hinv)

/-- The whole ForEach fold never puts the empty path into the changes map. -/
theorem applyCommits_keys (author : String) :
    ∀ (cs : List Commit) (st st' : LogState),
      applyCommits author st cs = .ok st' →
      (∀ kv ∈ st.changesPerFile, kv.1 ≠ "") →
      ∀ kv ∈ st'.changesPerFile, kv.1 ≠ "" := by
  intro cs
  induction cs with
  | nil =>
    intro st st' h hinv
    simp only [applyCommits] at h
    cases h
    exact hinv
  | cons c rest ih =>
    intro st st' h hinv
    simp only [applyCommits] at h
    by_cases hskip : author ≠ "" ∧ c.authorName ≠ author
    · rw [applyCommit_skip author st c hskip] at h
      exact ih st st' h hinv
    · cases hsr : c.statsResult with
      | error e =>
        rw [applyCommit_statsErr author st c e hskip hsr] at h
        cases h
      | ok sts =>
        rw [applyCommit_ok author st c sts hskip hsr] at h
        exact ih _ st' h
          (foldl_stepStat_keys c.authorName (firstLine c.message) sts st hinv)

/-- Unfolding one record of a file-list lookup. -/
theorem fileChanges_cons (f : file) (rest : List file) (p : String) :
    fileChanges (f :: rest) p = if f.path = p then f.changes else fileChanges rest p := by
  simp only [fileChanges, List.find?]
  by_cases h : f.path = p
  · simp [h]
  · simp [h]

/-- The flattened file list reports for any path exactly the value of the
changes map at that path. -/
theorem flattenFiles_changes (st : LogState) (p : String) :
    fileChanges (flattenFiles st) p = assocGet st.changesPerFile p := by
  rw [flattenFiles]
  induction st.changesPerFile with
  | nil => rfl
  | cons kv rest ih =>
    rw [List.map_cons, fileChanges_cons, assocGet_cons]
    by_cases h : kv.1 = p
    · simp [h]
    · simp only [h, if_false]
      exact ih

/-- Every record of the flattened file list has a non-empty path when the
changes map has no empty key. -/
theorem flattenFiles_paths (st : LogState)
    (hinv : ∀ kv ∈ st.changesPerFile, kv.1 ≠ "") :
    ∀ f ∈ flattenFiles st, f.path ≠ "" := by
  intro f hf
  rw [flattenFiles] at hf
  rcases List.mem_map.mp hf with ⟨kv, hkv, hrec⟩
  rw [← hrec]
  exact hinv kv hkv

/-- Inversion of a successful parseRepoLogs run: the log call succeeded, the
fold over the windowed commits succeeded, and the result is its flattening. -/
theorem parseRepoLogs_ok_inv (r : Repo) (pullFlag : Bool) (author : String) (cutoff : Nat)
    (fs : List file) (h : parseRepoLogs r pullFlag author cutoff = .ok fs) :
    ∃ st, applyCommits author initLogState (r.commits.filter (fun c => cutoff ≤ c.when)) = .ok st
      ∧ fs = flattenFiles st := by
  have hcore : parseLogsCore r author cutoff = .ok fs := by
    unfold parseRepoLogs at h
    cases pullFlag with
    | false => simpa using h
    | true =>
      cases hp : pullRepo r with
      | none => rw [if_pos rfl, hp] at h; exact h
      | some e => rw [if_pos rfl, hp] at h; cases h
  unfold parseLogsCore at hcore
  cases hle : r.logErr with
  | some e => rw [hle] at hcore; cases hcore
  | none =>
    rw [hle] at hcore
    cases happ : applyCommits author initLogState (r.commits.filter (fun c => cutoff ≤ c.when)) with
    | error e => rw [happ] at hcore; cases hcore
    | ok st =>
      rw [happ] at hcore
      exact ⟨st, rfl, by cases hcore; rfl⟩

/-- Composing the window filter of repo.Log with the author filter of the
callback gives exactly the qualifying-commit filter. -/
theorem windowed_author_filter (r : Repo) (author : String) (cutoff : Nat) :
    (r.commits.filter (fun c => cutoff ≤ c.when)).filter
        (fun c => author = "" || c.authorName = author)
      = r.commits.filter (commitQualifies author cutoff) := by
  rw [List.filter_filter]
  apply List.filter_congr
  intro c _
  simp [commitQualifies, Bool.and_comm]

/-- C3: whenever parseRepoLogs succeeds, every non-empty path is reported
with exactly the sum of added plus deleted lines over the qualifying commits
(inside the window, matching the author filter when one is set) restricted
to the stats naming that path, and no produced record carries an empty
path, so empty-path stats contribute to no change count. -/
theorem c3_change_count (r : Repo) (pullFlag : Bool) (author : String) (cutoff : Nat)
    (fs : List file) (h : parseRepoLogs r pullFlag author cutoff = .ok fs) :
    (∀ p, p ≠ "" → fileChanges fs p = specChangeSum r author cutoff p)
    ∧ ∀ f ∈ fs, f.path ≠ "" := by
  rcases parseRepoLogs_ok_inv r pullFlag author cutoff fs h with ⟨st, happ, hfs⟩
  constructor
  · intro p hp
    rw [hfs, flattenFiles_changes, applyCommits_changes author p hp _ _ _ happ]
    have hinit : assocGet initLogState.changesPerFile p = 0 := rfl
    rw [hinit, windowed_author_filter]
    simp [specChangeSum]
  · rw [hfs]
    refine flattenFiles_paths st (applyCommits_keys author _ _ _ happ ?_)
    intro kv hkv
    exact absurd hkv (List.not_mem_nil kv)

/-- Witness for C3 on a two-author history: cutoff 5 keeps the two alice
commits (x.txt gets 12 from the first and 2 from the second, y.txt gets 2)
and drops bob's out-of-window commit. -/
theorem c3_change_count_witness :
    fileChanges [⟨"x.txt", 14, ["alice"]⟩, ⟨"y.txt", 2, ["alice"]⟩] "x.txt"
      = specChangeSum
          ⟨none, PullOutcome.ok, none,
            [⟨"alice", "m1", 10, .ok [⟨"x.txt", 10, 2⟩]⟩,
             ⟨"alice", "m2", 11, .ok [⟨"x.txt", 1, 1⟩, ⟨"y.txt", 1, 1⟩]⟩,
             ⟨"bob", "m3", 1, .ok [⟨"x.txt", 100, 0⟩]⟩]⟩ "" 5 "x.txt"
    ∧ specChangeSum
          ⟨none, PullOutcome.ok, none,
            [⟨"alice", "m1", 10, .ok [⟨"x.txt", 10, 2⟩]⟩,
             ⟨"alice", "m2", 11, .ok [⟨"x.txt", 1, 1⟩, ⟨"y.txt", 1, 1⟩]⟩,
             ⟨"bob", "m3", 1, .ok [⟨"x.txt", 100, 0⟩]⟩]⟩ "" 5 "x.txt" = 14 :=
  ⟨(c3_change_count
      ⟨none, PullOutcome.ok, none,
        [⟨"alice", "m1", 10, .ok [⟨"x.txt", 10, 2⟩]⟩,
         ⟨"alice", "m2", 11, .ok [⟨"x.txt", 1, 1⟩, ⟨"y.txt", 1, 1⟩]⟩,
         ⟨"bob", "m3", 1, .ok [⟨"x.txt", 100, 0⟩]⟩]⟩
      false "" 5
      [⟨"x.txt", 14, ["alice"]⟩, ⟨"y.txt", 2, ["alice"]⟩]
      (by decide)).1 "x.txt" (by decide),
   by decide⟩

/-- applyCommit can only fail with a stats or statFatal error, never with a
pull error. -/
theorem applyCommit_no_pull (author : String) (st : LogState) (c : Commit) (e : String) :
    applyCommit author st c ≠ .error (.pull e) := by
  by_cases hskip : author ≠ "" ∧ c.authorName ≠ author
  · rw [applyCommit_skip author st c hskip]
    intro hc
    exact Except.noConfusion hc
  · cases hsr : c.statsResult with
    | error e2 =>
      rw [applyCommit_statsErr author st c e2 hskip hsr]
      intro hc
      injection hc with h2
      exact PErr.noConfusion h2
    | ok sts =>
      rw [applyCommit_ok author st c sts hskip hsr]
      intro hc
      exact Except.noConfusion hc

/-- The ForEach fold never fails with a pull error. -/
theorem applyCommits_no_pull (author : String) :
    ∀ (cs : List Commit) (st : LogState) (e : String),
      applyCommits author st cs ≠ .error (.pull e) := by
  intro cs
  induction cs with
  | nil =>
    intro st e hc
    simp only [applyCommits] at hc
    exact Except.noConfusion hc
  | cons c rest ih =>
    intro st e hc
    simp only [applyCommits] at hc
    cases hac : applyCommit author st c with
    | error e2 =>
      simp only [hac] at hc
      injection hc with h2
      rw [h2] at hac
      exact applyCommit_no_pull author st c e hac
    | ok st2 =>
      simp only [hac] at hc
      exact ih st2 e hc

/-- The post-pull body of parseRepoLogs never produces a pull error. -/
theorem parseLogsCore_no_pull (r : Repo) (author : String) (cutoff : Nat) (e : String) :
    parseLogsCore r author cutoff ≠ .error (.pull e) := by
  intro hc
  unfold parseLogsCore at hc
  cases hle : r.logErr with
  | some e2 =>
    simp only [hle] at hc
    injection hc with h2
    exact PErr.noConfusion h2
  | none =>
    simp only [hle] at hc
    cases happ : applyCommits author initLogState
        (r.commits.filter (fun c => cutoff ≤ c.when)) with
    | error e2 =>
      simp only [happ] at hc
      injection hc with h2
      rw [h2] at happ
      exact applyCommits_no_pull author _ _ e happ
    | ok st =>
      simp only [happ] at hc
      exact Except.noConfusion hc

/-- A worker iteration whose parse cannot produce a pull error writes no
warning line (it either emits with no warning or dies fatally). -/
theorem warningsOf_workerStep (u : RepoUnit) (pf : Bool) (a : String) (c : Nat)
    (h : ∀ e, parseRepoLogs u.repo pf a c ≠ .error (.pull e)) :
    warningsOf (workerStep u pf a c) = [] := by
  unfold workerStep
  cases hres : parseRepoLogs u.repo pf a c with
  | ok fs => rfl
  | error e =>
    cases e with
    | pull e2 => exact absurd hres (h e2)
    | log e2 => rfl
    | stats e2 => rfl
    | statFatal e2 => rfl

/-- C1 (amended): when the pull flag is set and synchronization fails with
the non-fatal pullError, the worker emits exactly one warning line for that
repository and the run continues (no fatal), but the repository comes back
with an empty file list — its logs were never parsed — and a directory with
an empty file list produces no report row, so the repository is omitted
from the report rather than reported from local history. -/
theorem c1_pull_failure_warns_but_omits (u : RepoUnit) (author : String) (cutoff : Nat)
    (e : String) (h : pullRepo u.repo = some e) :
    workerStep u true author cutoff
      = .emit { path := u.path, changes := 0, authors := [], files := [] }
          ["while pulling repo " ++ u.path ++ ": " ++ e]
    ∧ reportRows [{ path := u.path, changes := 0, authors := [], files := [] }] = [] := by
  have hp : parseRepoLogs u.repo true author cutoff = .error (.pull e) := by
    unfold parseRepoLogs
    rw [if_pos rfl, h]
  constructor
  · unfold workerStep
    rw [hp]
    rfl
  · rfl

/-- Witness for C1 at a concrete repository whose pull fails. -/
theorem c1_pull_failure_warns_but_omits_witness :
    workerStep ⟨"r", ⟨none, .err "network down", none, []⟩⟩ true "" 0
      = .emit { path := "r", changes := 0, authors := [], files := [] }
          ["while pulling repo " ++ "r" ++ ": " ++ "network down"]
    ∧ reportRows [{ path := "r", changes := 0, authors := [], files := [] }] = [] :=
  c1_pull_failure_warns_but_omits ⟨"r", ⟨none, .err "network down", none, []⟩⟩ "" 0
    "network down" (by decide)

/-- Counterexample to C1 as stated: a repository whose pull fails but whose
locally available history carries real changes (parsing it without the pull
yields a non-empty aggregate) is emitted with an empty file list and gets no
report row at all — the run warns and continues, but the repository's
locally available aggregates are not reported; the repository is omitted. -/
theorem c1_pull_failure_counterexample :
    workerStep ⟨"r", ⟨none, .err "network down", none,
        [⟨"alice", "msg", 5, .ok [⟨"a.txt", 2, 1⟩]⟩]⟩⟩ true "" 0
      = .emit ⟨"r", 0, [], []⟩ ["while pulling repo r: network down"]
    ∧ parseRepoLogs ⟨none, .err "network down", none,
        [⟨"alice", "msg", 5, .ok [⟨"a.txt", 2, 1⟩]⟩]⟩ false "" 0
      = .ok [⟨"a.txt", 3, ["alice"]⟩]
    ∧ reportRows [⟨"r", 0, [], []⟩] = [] := by
  refine ⟨by decide, by decide, rfl⟩

/-- C8: the fatal error classification.  A repo.Log failure makes the worker
die with the one parsing diagnostic (assuming the pull step did not fail
first, which would be the recoverable case); a stats failure surfacing from
parseRepoLogs likewise makes the worker die; and during discovery the
not-a-repository open outcome is the only one under which the walk keeps
recursing — any other error is returned and aborts the run. -/
theorem c8_history_and_stats_failures_fatal (u : RepoUnit) (pullFlag : Bool)
    (author : String) (cutoff : Nat) (e : String) :
    (u.repo.logErr = some e → pullRepo u.repo = none →
       workerStep u pullFlag author cutoff
         = .fatal ("while parsing repo " ++ u.path ++ ": " ++ e))
    ∧ (parseRepoLogs u.repo pullFlag author cutoff = .error (.stats e) →
       workerStep u pullFlag author cutoff
         = .fatal ("while parsing repo " ++ u.path ++ ": " ++ e))
    ∧ (∀ o : OpenResult, visitDir o = .recurse ↔ o = .notExists) := by
  refine ⟨?_, ?_, ?_⟩
  · intro hle hpr
    have hcore : parseLogsCore u.repo author cutoff = .error (.log e) := by
      unfold parseLogsCore
      rw [hle]
    have hp : parseRepoLogs u.repo pullFlag author cutoff = .error (.log e) := by
      unfold parseRepoLogs
      cases pullFlag with
      | false => simpa using hcore
      | true => rw [if_pos rfl, hpr]; exact hcore
    unfold workerStep
    rw [hp]
    rfl
  · intro hp
    unfold workerStep
    rw [hp]
    rfl
  · intro o
    cases o <;> simp [visitDir]

/-- Witness for C8: a log failure and a stats failure on concrete
repositories both end in the fatal outcome, and the not-exists open outcome
recurses. -/
theorem c8_history_and_stats_failures_fatal_witness :
    workerStep ⟨"r", ⟨none, .ok, some "bad object", []⟩⟩ false "" 0
      = .fatal ("while parsing repo " ++ "r" ++ ": " ++ "bad object")
    ∧ workerStep ⟨"q", ⟨none, .ok, none, [⟨"alice", "m", 5, .error "stat fail"⟩]⟩⟩ false "" 0
      = .fatal ("while parsing repo " ++ "q" ++ ": " ++ "stat fail")
    ∧ (visitDir .notExists = .recurse ↔ (OpenResult.notExists = .notExists)) :=
  ⟨(c8_history_and_stats_failures_fatal ⟨"r", ⟨none, .ok, some "bad object", []⟩⟩
      false "" 0 "bad object").1 (by decide) (by decide),
   (c8_history_and_stats_failures_fatal ⟨"q", ⟨none, .ok, none,
        [⟨"alice", "m", 5, .error "stat fail"⟩]⟩⟩
      false "" 0 "stat fail").2.1 (by decide),
   (c8_history_and_stats_failures_fatal ⟨"r", ⟨none, .ok, none, []⟩⟩
      false "" 0 "x").2.2 .notExists⟩

/-- C9: a pull that comes back already-up-to-date is success.  pullRepo
returns no error, the worker behaves identically to a worker whose pull
succeeded outright, and no warning line is written. -/
theorem c9_already_up_to_date_is_success (le : Option String) (cs : List Commit)
    (p author : String) (cutoff : Nat) :
    pullRepo ⟨none, .alreadyUpToDate, le, cs⟩ = none
    ∧ workerStep ⟨p, ⟨none, .alreadyUpToDate, le, cs⟩⟩ true author cutoff
        = workerStep ⟨p, ⟨none, .ok, le, cs⟩⟩ true author cutoff
    ∧ warningsOf (workerStep ⟨p, ⟨none, .alreadyUpToDate, le, cs⟩⟩ true author cutoff) = [] := by
  refine ⟨rfl, rfl, ?_⟩
  apply warningsOf_workerStep
  intro e hc
  have hcore : parseLogsCore ⟨none, .alreadyUpToDate, le, cs⟩ author cutoff
      = .error (.pull e) := hc
  exact parseLogsCore_no_pull _ author cutoff e hcore

/-- Closed form of the collection loop of reportResults: starting from any
accumulator, it adds the changes of the directories with a non-empty file
list and appends exactly those directories in arrival order. -/
theorem collectResults_loop :
    ∀ (ds : List directory) (n0 : Nat) (l0 : List directory),
      ds.foldl
          (fun acc d => if d.files.isEmpty then acc else (acc.1 + d.changes, acc.2 ++ [d]))
          (n0, l0)
        = (n0 + ((ds.filter (fun d => !d.files.isEmpty)).map (fun d => d.changes)).sum,
           l0 ++ ds.filter (fun d => !d.files.isEmpty)) := by
  intro ds
  induction ds with
  | nil => intro n0 l0; simp
  | cons d rest ih =>
    intro n0 l0
    simp only [List.foldl_cons]
    cases hde : d.files.isEmpty with
    | true =>
      rw [if_pos rfl, ih n0 l0]
      simp [List.filter_cons, hde]
    | false =>
      rw [if_neg (by simp), ih (n0 + d.changes) (l0 ++ [d])]
      simp [List.filter_cons, hde, Nat.add_assoc]

/-- The collection step keeps exactly the directories with a non-empty file
list, in arrival order, and totals their changes. -/
theorem collectResults_eq (ds : List directory) :
    collectResults ds
      = (((ds.filter (fun d => !d.files.isEmpty)).map (fun d => d.changes)).sum,
         ds.filter (fun d => !d.files.isEmpty)) := by
  unfold collectResults
  rw [collectResults_loop]
  simp

/-- C2 (amended): the reporter surfaces exactly the directories whose file
list is non-empty — the guard is on the file list, not on the change count,
so a repository whose only qualifying stats have zero added plus deleted
lines (total change count zero, non-empty file list) still appears. -/
theorem c2_report_filters_on_file_list (ds : List directory) :
    (collectResults ds).2 = ds.filter (fun d => !d.files.isEmpty) := by
  rw [collectResults_eq]

/-- Counterexample to C2 as stated: a repository processed from one
qualifying commit touching one file with zero added and zero deleted lines
has aggregate change count zero, yet it appears in the final report with a
row (its percentage is even the float artifact NaN of the 0/0 division). -/
theorem c2_zero_total_counterexample :
    workerStep ⟨"r", ⟨none, .ok, none, [⟨"alice", "m", 5, .ok [⟨"bin", 0, 0⟩]⟩]⟩⟩ false "" 0
      = .emit ⟨"r", 0, ["alice"], [⟨"bin", 0, ["alice"]⟩]⟩ []
    ∧ (⟨"r", 0, ["alice"], [⟨"bin", 0, ["alice"]⟩]⟩ : directory).changes = 0
    ∧ reportRows [⟨"r", 0, ["alice"], [⟨"bin", 0, ["alice"]⟩]⟩]
        = [⟨"r", PctVal.nan, 0, "alice"⟩] := by
  refine ⟨by decide, rfl, by decide⟩

/-- Closed form of the worker accumulation loop: it adds up the files'
change counts onto the running directory and leaves the files field
alone. -/
theorem accumulate_foldl :
    ∀ (fs : List file) (d : directory),
      ((fs.foldl (fun d f => { d with changes := d.changes + f.changes
                                    , authors := d.authors ++ f.authors }) d).changes
        = d.changes + (fs.map (fun f => f.changes)).sum)
      ∧ ((fs.foldl (fun d f => { d with changes := d.changes + f.changes
                                      , authors := d.authors ++ f.authors }) d).files
        = d.files) := by
  intro fs
  induction fs with
  | nil => intro d; simp
  | cons f rest ih =>
    intro d
    simp only [List.foldl_cons, List.map_cons, List.sum_cons]
    constructor
    · rw [(ih _).1]
      simp [Nat.add_assoc]
    · rw [(ih _).2]

/-- An emitted directory always totals exactly its files' change counts. -/
theorem workerStep_changes (u : RepoUnit) (pf : Bool) (a : String) (c : Nat)
    (d : directory) (w : List String) (h : workerStep u pf a c = .emit d w) :
    d.changes = (d.files.map (fun f => f.changes)).sum := by
  unfold workerStep at h
  cases hres : parseRepoLogs u.repo pf a c with
  | ok fs =>
    rw [hres] at h
    have h2 : WorkerOut.emit (accumulate u.path fs) [] = .emit d w := h
    injection h2 with hd hw
    rw [← hd]
    unfold accumulate
    rw [(accumulate_foldl fs _).1, (accumulate_foldl fs _).2]
    simp
  | error e =>
    cases e with
    | pull e2 =>
      rw [hres] at h
      have h2 : WorkerOut.emit (accumulate u.path []) _ = .emit d w := h
      injection h2 with hd hw
      rw [← hd]
      unfold accumulate
      rw [(accumulate_foldl [] _).1, (accumulate_foldl [] _).2]
      simp
    | log e2 =>
      rw [hres] at h
      exact absurd h (by intro hc; exact WorkerOut.noConfusion hc)
    | stats e2 =>
      rw [hres] at h
      exact absurd h (by intro hc; exact WorkerOut.noConfusion hc)
    | statFatal e2 =>
      rw [hres] at h
      exact absurd h (by intro hc; exact WorkerOut.noConfusion hc)

/-- C5 (amended): conservation holds — the grand total is the sum of the
surviving directories' totals, and every directory a worker emits totals
exactly its files' change counts — and every printed percentage is the
half-to-even rounding that the %2.0f float formatting performs (which
differs from rounding halves up, see the counterexample). -/
theorem c5_totals_conserved (ds : List directory) (u : RepoUnit) (pf : Bool)
    (a : String) (c : Nat) :
    (collectResults ds).1 = (((collectResults ds).2).map (fun d => d.changes)).sum
    ∧ (∀ d w, workerStep u pf a c = .emit d w
        → d.changes = (d.files.map (fun f => f.changes)).sum)
    ∧ (∀ row ∈ reportRows ds, row.pct = pctDisplay row.changes (collectResults ds).1) := by
  refine ⟨?_, ?_, ?_⟩
  · rw [collectResults_eq]
  · intro d w h
    exact workerStep_changes u pf a c d w h
  · intro row hrow
    unfold reportRows at hrow
    rcases List.mem_map.mp hrow with ⟨d, _, hrd⟩
    rw [← hrd]
    rfl

/-- Witness for C5: a worker-emitted directory totals its files' counts, and
the single row of a one-directory report carries the half-even percentage of
its count against the grand total. -/
theorem c5_totals_conserved_witness :
    (⟨"r", 4, ["alice"], [⟨"a", 4, ["alice"]⟩]⟩ : directory).changes
      = (([⟨"a", 4, ["alice"]⟩] : List file).map (fun f => f.changes)).sum
    ∧ (⟨"r", PctVal.num 100, 4, "alice"⟩ : Row).pct
      = pctDisplay (⟨"r", PctVal.num 100, 4, "alice"⟩ : Row).changes
          (collectResults [⟨"r", 4, ["alice"], [⟨"a", 4, ["alice"]⟩]⟩]).1 :=
  ⟨(c5_totals_conserved [] ⟨"r", ⟨none, .ok, none, [⟨"alice", "m", 5, .ok [⟨"a", 3, 1⟩]⟩]⟩⟩
      false "" 0).2.1
      ⟨"r", 4, ["alice"], [⟨"a", 4, ["alice"]⟩]⟩ [] (by decide),
   (c5_totals_conserved [⟨"r", 4, ["alice"], [⟨"a", 4, ["alice"]⟩]⟩]
      ⟨"x", ⟨none, .ok, none, []⟩⟩ false "" 0).2.2
      ⟨"r", PctVal.num 100, 4, "alice"⟩ (by decide)⟩

/-- Counterexample to C5 as stated: with survivor counts 1 and 7 the grand
total is 8, the exact percentage of the count-1 row is 12.5, the program
displays 12 (the %2.0f float formatting rounds the representable half to the
even digit), while rounding to the nearest whole number in the usual
half-up sense gives 13. -/
theorem c5_percentage_counterexample :
    (reportRows [⟨"a", 1, ["u"], [⟨"fa", 1, ["u"]⟩]⟩,
                 ⟨"b", 7, ["v"], [⟨"fb", 7, ["v"]⟩]⟩]).map Row.pct
      = [PctVal.num 88, PctVal.num 12]
    ∧ specRoundNearest 1 8 = 13
    ∧ (collectResults [⟨"a", 1, ["u"], [⟨"fa", 1, ["u"]⟩]⟩,
                       ⟨"b", 7, ["v"], [⟨"fb", 7, ["v"]⟩]⟩]).1 = 8 := by
  refine ⟨by decide, by decide, by decide⟩

mutual
/-- The emitted units of a tree form a sublist of its directory paths in
visit order. -/
theorem walkRepos_sublist : ∀ t : FsNode, (walkRepos t).Sublist (dirPaths t)
  | .file _ => by simp [walkRepos, dirPaths]
  | .dir p isRoot cs => by
    cases isRoot with
    | true =>
      rw [show walkRepos (.dir p true cs) = [p] from rfl]
      rw [show dirPaths (.dir p true cs) = p :: dirPathsF cs from rfl]
      exact (List.nil_sublist _).cons₂ p
    | false =>
      rw [show walkRepos (.dir p false cs) = walkReposF cs from rfl]
      rw [show dirPaths (.dir p false cs) = p :: dirPathsF cs from rfl]
      exact (walkReposF_sublist cs).cons p

/-- Forest version of walkRepos_sublist. -/
theorem walkReposF_sublist : ∀ f : FsForest, (walkReposF f).Sublist (dirPathsF f)
  | .nil => by simp [walkReposF, dirPathsF]
  | .cons t ts => by
    rw [show walkReposF (.cons t ts) = walkRepos t ++ walkReposF ts from rfl]
    rw [show dirPathsF (.cons t ts) = dirPaths t ++ dirPathsF ts from rfl]
    exact (walkRepos_sublist t).append (walkReposF_sublist ts)
end

mutual
/-- Every repository root path of a tree is one of its directory paths. -/
theorem reposOf_sub : ∀ (t : FsNode) (x : String), x ∈ reposOf t → x ∈ dirPaths t
  | .file _, x => by intro h; simp [reposOf] at h
  | .dir p isRoot cs, x => by
    intro h
    rw [show reposOf (.dir p isRoot cs)
        = (if isRoot then [p] else []) ++ reposOfF cs from rfl] at h
    rw [show dirPaths (.dir p isRoot cs) = p :: dirPathsF cs from rfl]
    rcases List.mem_append.mp h with h1 | h2
    · cases isRoot with
      | true =>
        rw [if_pos rfl] at h1
        rw [show x = p from by simpa using h1]
        exact List.mem_cons_self p _
      | false =>
        rw [if_neg (by simp)] at h1
        exact absurd h1 (List.not_mem_nil x)
    · exact List.mem_cons_of_mem p (reposOfF_sub cs x h2)

/-- Forest version of reposOf_sub. -/
theorem reposOfF_sub : ∀ (f : FsForest) (x : String), x ∈ reposOfF f → x ∈ dirPathsF f
  | .nil, x => by intro h; simp [reposOfF] at h
  | .cons t ts, x => by
    intro h
    rw [show reposOfF (.cons t ts) = reposOf t ++ reposOfF ts from rfl] at h
    rw [show dirPathsF (.cons t ts) = dirPaths t ++ dirPathsF ts from rfl]
    rcases List.mem_append.mp h with h1 | h2
    · exact List.mem_append.mpr (Or.inl (reposOf_sub t x h1))
    · exact List.mem_append.mpr (Or.inr (reposOfF_sub ts x h2))
end

mutual
/-- Every emitted unit of a tree is a repository root of the tree. -/
theorem walkRepos_sub_repos : ∀ (t : FsNode) (x : String), x ∈ walkRepos t → x ∈ reposOf t
  | .file _, x => by intro h; simp [walkRepos] at h
  | .dir p isRoot cs, x => by
    intro h
    rw [show reposOf (.dir p isRoot cs)
        = (if isRoot then [p] else []) ++ reposOfF cs from rfl]
    cases isRoot with
    | true =>
      rw [show walkRepos (.dir p true cs) = [p] from rfl] at h
      rw [if_pos rfl]
      exact List.mem_append.mpr (Or.inl h)
    | false =>
      rw [show walkRepos (.dir p false cs) = walkReposF cs from rfl] at h
      exact List.mem_append.mpr (Or.inr (walkReposF_sub_repos cs x h))

/-- Forest version of walkRepos_sub_repos. -/
theorem walkReposF_sub_repos : ∀ (f : FsForest) (x : String), x ∈ walkReposF f → x ∈ reposOfF f
  | .nil, x => by intro h; simp [walkReposF] at h
  | .cons t ts, x => by
    intro h
    rw [show walkReposF (.cons t ts) = walkRepos t ++ walkReposF ts from rfl] at h
    rw [show reposOfF (.cons t ts) = reposOf t ++ reposOfF ts from rfl]
    rcases List.mem_append.mp h with h1 | h2
    · exact List.mem_append.mpr (Or.inl (walkRepos_sub_repos t x h1))
    · exact List.mem_append.mpr (Or.inr (walkReposF_sub_repos ts x h2))
end

/-- The directory paths of a forest member are directory paths of the
forest. -/
theorem forestMem_dirPaths {c : FsNode} :
    ∀ {f : FsForest}, ForestMem c f → ∀ x ∈ dirPaths c, x ∈ dirPathsF f := by
  intro f hm
  induction hm with
  | head ts =>
    intro x hx
    exact List.mem_append.mpr (Or.inl hx)
  | tail s hmem ih =>
    intro x hx
    exact List.mem_append.mpr (Or.inr (ih x hx))

/-- The directory paths of a subtree are directory paths of the tree. -/
theorem inTree_dirPaths : ∀ {s t : FsNode}, InTree s t → ∀ x ∈ dirPaths s, x ∈ dirPaths t := by
  intro s t h
  induction h with
  | refl => exact fun x hx => hx
  | step hmem _ ih =>
    intro x hx
    exact List.mem_cons_of_mem _ (forestMem_dirPaths hmem x (ih x hx))

/-- Distinct directory paths in a forest give distinct paths in each of its
members. -/
theorem nodup_dirPaths_of_forestMem {c : FsNode} :
    ∀ {f : FsForest}, ForestMem c f → (dirPathsF f).Nodup → (dirPaths c).Nodup := by
  intro f hm
  induction hm with
  | head ts =>
    intro hnd
    have hnd2 : (dirPaths c ++ dirPathsF ts).Nodup := hnd
    rw [List.nodup_append] at hnd2
    exact hnd2.1
  | tail s hmem ih =>
    intro hnd
    have hnd2 : (dirPaths s ++ dirPathsF _).Nodup := hnd
    rw [List.nodup_append] at hnd2
    exact ih hnd2.2.1

/-- In a forest with distinct directory paths, an emitted path lying among a
member's directory paths must be emitted by that member itself. -/
theorem walkF_mem_of_dirPaths {c : FsNode} {q : String} :
    ∀ {f : FsForest}, ForestMem c f → (dirPathsF f).Nodup →
      q ∈ dirPaths c → q ∈ walkReposF f → q ∈ walkRepos c := by
  intro f hm
  induction hm with
  | head ts =>
    intro hnd hqc hqw
    have hnd2 : (dirPaths c ++ dirPathsF ts).Nodup := hnd
    rw [List.nodup_append] at hnd2
    have hqw2 : q ∈ walkRepos c ++ walkReposF ts := hqw
    rcases List.mem_append.mp hqw2 with h1 | h2
    · exact h1
    · exact absurd ((walkReposF_sublist ts).subset h2) (hnd2.2.2 hqc)
  | tail s hmem ih =>
    intro hnd hqc hqw
    have hnd2 : (dirPaths s ++ dirPathsF _).Nodup := hnd
    rw [List.nodup_append] at hnd2
    have hqw2 : q ∈ walkRepos s ++ walkReposF _ := hqw
    rcases List.mem_append.mp hqw2 with h1 | h2
    · exact absurd (forestMem_dirPaths hmem q hqc)
        (hnd2.2.2 ((walkRepos_sublist s).subset h1))
    · exact ih hnd2.2.1 hqc h2

/-- In a tree with distinct directory paths, no repository root lying inside
the children of a recognized repository root is ever emitted by the walk. -/
theorem nested_root_not_walked (q : String) :
    ∀ {s t : FsNode}, InTree s t → ∀ (p : String) (cs : FsForest), s = .dir p true cs →
      (dirPaths t).Nodup → q ∈ reposOfF cs → q ∉ walkRepos t := by
  intro s t h
  induction h with
  | refl =>
    intro p cs hs hnd hq hw
    subst hs
    have hw2 : q ∈ [p] := hw
    have hqp : q = p := by simpa using hw2
    have hnd2 : (p :: dirPathsF cs).Nodup := hnd
    rw [List.nodup_cons] at hnd2
    exact hnd2.1 (hqp ▸ reposOfF_sub cs q hq)
  | step hmem hsub ih =>
    intro p cs hs hnd hq hw
    subst hs
    rename_i c p2 r2 cs2
    have h1 : q ∈ dirPaths (FsNode.dir p true cs) :=
      List.mem_cons_of_mem p (reposOfF_sub cs q hq)
    have h2 : q ∈ dirPaths c := inTree_dirPaths hsub q h1
    have hnd2 : (p2 :: dirPathsF cs2).Nodup := hnd
    rw [List.nodup_cons] at hnd2
    cases r2 with
    | true =>
      have hw2 : q ∈ [p2] := hw
      have hqp : q = p2 := by simpa using hw2
      exact hnd2.1 (hqp ▸ forestMem_dirPaths hmem q h2)
    | false =>
      have hw2 : q ∈ walkReposF cs2 := hw
      have h3 : q ∈ walkRepos c := walkF_mem_of_dirPaths hmem hnd2.2 h2 hw2
      exact ih p cs rfl (nodup_dirPaths_of_forestMem hmem hnd2.2) hq h3

/-- C7: a directory recognized as a repository root emits exactly its own
unit and the walk never descends into its children; consequently a
repository root nested anywhere inside another root (paths being distinct,
as filesystem paths are) is never emitted, every root is emitted at most
once, and everything emitted is a repository root. -/
theorem c7_root_skips_children (p : String) (cs : FsForest) (t : FsNode) (q : String) :
    walkRepos (.dir p true cs) = [p]
    ∧ (InTree (.dir p true cs) t → (dirPaths t).Nodup → q ∈ reposOfF cs → q ∉ walkRepos t)
    ∧ ((dirPaths t).Nodup → (walkRepos t).Nodup)
    ∧ (∀ x ∈ walkRepos t, x ∈ reposOf t) := by
  refine ⟨rfl, ?_, ?_, ?_⟩
  · intro hin hnd hq
    exact nested_root_not_walked q hin p cs rfl hnd hq
  · intro hnd
    exact List.Nodup.sublist (walkRepos_sublist t) hnd
  · exact fun x hx => walkRepos_sub_repos t x hx

/-- Witness for C7: a root directory with a nested (vendored) root inside
emits only its own path, and the nested root's path is not emitted. -/
theorem c7_root_skips_children_witness :
    walkRepos (.dir "/a" true (.cons (.dir "/a/v" true .nil) .nil)) = ["/a"]
    ∧ "/a/v" ∉ walkRepos (.dir "/a" true (.cons (.dir "/a/v" true .nil) .nil)) :=
  ⟨(c7_root_skips_children "/a" (.cons (.dir "/a/v" true .nil) .nil)
      (.dir "/a" true (.cons (.dir "/a/v" true .nil) .nil)) "/a/v").1,
   (c7_root_skips_children "/a" (.cons (.dir "/a/v" true .nil) .nil)
      (.dir "/a" true (.cons (.dir "/a/v" true .nil) .nil)) "/a/v").2.1
     (InTree.refl _) (by decide) (by decide)⟩
